import Mathlib

/-!
Verification of the mnt mount-table library (parse.rs).

The embedding models the current implementation in `src/parse.rs`:
paths are represented by their component lists (exactly the view Rust's
`Path` methods `==`, `cmp`, `starts_with` and `is_relative` operate on),
lines of the mount table are strings, and the I/O layer is a list of
line-read results (`Except String String`, an `error` being an I/O
failure of the underlying reader).
-/

/-- Path components in the sense of Rust's `std::path::Component` on Unix
(no `Prefix` component exists there). -/
inductive Component
  | rootDir
  | curDir
  | parentDir
  | normal (s : String)
deriving DecidableEq, Repr

/-- A `PathBuf` is identified with its list of components: every operation
the source performs on paths (equality, ordering, `starts_with`,
`is_relative`) is defined on the component view. -/
abbrev PathBuf := List Component

/-- Split a character list at each occurrence of `sep`, keeping empty
pieces (the behaviour of Rust's `str::split`). -/
def splitCharAux (sep : Char) : List Char → List Char → List (List Char)
  | [], cur => [cur.reverse]
  | c :: rest, cur =>
    if c = sep then cur.reverse :: splitCharAux sep rest []
    else splitCharAux sep rest (c :: cur)

def splitChar (sep : Char) (s : String) : List String :=
  (splitCharAux sep s.data []).map (fun p => ⟨p⟩)

/-- Rust's `str::split_terminator`: like `split`, but a trailing empty
piece is dropped. -/
def splitTerm (sep : Char) (s : String) : List String :=
  let parts := splitChar sep s
  if parts.getLast? = some "" then parts.dropLast else parts

/-- Component decomposition of a path string, following Rust's
`Path::components` on Unix: a leading `/` becomes `RootDir`, empty and
`.` pieces are dropped (except a leading `.` of a relative path, kept as
`CurDir`), and `..` becomes `ParentDir`. -/
def parsePath (s : String) : PathBuf :=
  let cs := s.data
  let parts := (splitCharAux '/' cs []).filter (fun p => ¬(p = []) ∧ ¬(p = ['.']))
  let comps := parts.map (fun p =>
    if p = ['.', '.'] then Component.parentDir else Component.normal ⟨p⟩)
  if cs.head? = some '/' then Component.rootDir :: comps
  else if cs.head? = some '.' ∧ (cs.tail.head? = none ∨ cs.tail.head? = some '/') then
    Component.curDir :: comps
  else comps

/-- Rust `Path::is_relative` on Unix: no leading root component. -/
def pathIsRelative (p : PathBuf) : Bool :=
  decide (p.head? ≠ some Component.rootDir)

/-- The path `/`, as built by `Path::new("/")` in `remove_overlaps`. -/
def rootPath : PathBuf := [Component.rootDir]

/-- Whitespace trimmed by `str::trim` (restricted to the ASCII whitespace
that can occur in a mount-table line). -/
def isWsChar (c : Char) : Bool := c = ' ' ∨ c = '\t' ∨ c = '\n' ∨ c = '\r'

def trimChars (cs : List Char) : List Char :=
  ((cs.dropWhile isWsChar).reverse.dropWhile isWsChar).reverse

/-- Maximal runs of non-space/tab characters: the token stream
`line.trim().split_terminator(' ' or '\t').filter(non-empty)` of
`MountEntry::from_str`. -/
def tokensAux : List Char → List Char → List String
  | [], cur => if cur = [] then [] else [⟨cur.reverse⟩]
  | c :: rest, cur =>
    if c = ' ' ∨ c = '\t' then
      if cur = [] then tokensAux rest []
      else (⟨cur.reverse⟩ : String) :: tokensAux rest []
    else tokensAux rest (c :: cur)

def splitTokens (line : String) : List String :=
  tokensAux (trimChars line.data) []

/-- Decimal digit-string value; `none` unless the characters are one or
more ASCII digits. -/
def parseDigits (cs : List Char) : Option Nat :=
  if cs = [] then none
  else if cs.all Char.isDigit then
    some (cs.foldl (fun n c => n * 10 + (c.toNat - 48)) 0)
  else none

/-- Rust's `i32::from_str`: optional sign, decimal digits, failing on
overflow of the 32-bit range. -/
def parseI32 (s : String) : Option Int :=
  match s.data with
  | '+' :: rest =>
    (parseDigits rest).bind (fun n =>
      if (n : Int) ≤ 2147483647 then some (n : Int) else none)
  | '-' :: rest =>
    (parseDigits rest).bind (fun n =>
      if (n : Int) ≤ 2147483648 then some (-(n : Int)) else none)
  | cs =>
    (parseDigits cs).bind (fun n =>
      if (n : Int) ≤ 2147483647 then some (n : Int) else none)

/-- Field 5 of a mount line (`DumpField` in the source). -/
inductive DumpField
  | Ignore
  | Backup
deriving DecidableEq, Repr

/-- Field 6: `type PassField = Option<c_int>`. -/
abbrev PassField := Option Int

/-- Mount options (`MntOps` in the source). -/
inductive MntOps
  | Atime (b : Bool)
  | DirAtime (b : Bool)
  | RelAtime (b : Bool)
  | Dev (b : Bool)
  | Exec (b : Bool)
  | Suid (b : Bool)
  | Write (b : Bool)
  | Extra (s : String)
deriving DecidableEq, Repr

/-- Line-level parse errors (`LineError` in `error.rs`). -/
inductive LineError
  | MissingSpec
  | MissingFile
  | InvalidFilePath (s : String)
  | InvalidFile (s : String)
  | MissingVfstype
  | MissingMntops
  | MissingFreq
  | InvalidFreq (s : String)
  | MissingPassno
  | InvalidPassno (s : String)
deriving DecidableEq, Repr

/-- Table-level errors (`ParseError` in `error.rs`): either a wrapped I/O
failure of the line source, or a line error together with the 0-based
line number reported by the iterator. -/
inductive ParseError
  | ioError (e : String)
  | lineError (nb : Nat) (e : LineError)
deriving DecidableEq, Repr

/-- The total token-to-option mapping inside `MntOps::from_str`. -/
def mntOpsToken (token : String) : MntOps :=
  match token with
  | "atime" => .Atime true
  | "noatime" => .Atime false
  | "diratime" => .DirAtime true
  | "nodiratime" => .DirAtime false
  | "relatime" => .RelAtime true
  | "norelatime" => .RelAtime false
  | "dev" => .Dev true
  | "nodev" => .Dev false
  | "exec" => .Exec true
  | "noexec" => .Exec false
  | "suid" => .Suid true
  | "nosuid" => .Suid false
  | "rw" => .Write true
  | "ro" => .Write false
  | extra => .Extra extra

/-- Source `MntOps::from_str`: `Ok` of the total match above. -/
def MntOps.fromStr (token : String) : Except LineError MntOps :=
  .ok (mntOpsToken token)

/-- Model of the `.unwrap()` applied to each option sub-token in
`MountEntry::from_str`; the `error` branch stands for the panic. -/
def unwrapMntOps (r : Except LineError MntOps) : MntOps :=
  match r with
  | .ok m => m
  | .error _ => .Extra "panicked"

/-- One parsed mount-table line (`MountEntry` in the source), with the
`file` field kept in component form. -/
structure MountEntry where
  spec : String
  file : PathBuf
  vfstype : String
  mntops : List MntOps
  freq : DumpField
  passno : PassField
deriving DecidableEq, Repr

/-- The freq field: integer parse then `0 => Ignore, 1 => Backup`,
anything else `InvalidFreq`. -/
def parseFreqField (t : String) : Except LineError DumpField :=
  match parseI32 t with
  | some 0 => .ok .Ignore
  | some 1 => .ok .Backup
  | _ => .error (.InvalidFreq t)

/-- The passno field: `0 => None`, positive => `Some`, otherwise
`InvalidPassno`. -/
def parsePassnoField (t : String) : Except LineError PassField :=
  match parseI32 t with
  | some f =>
    if f = 0 then .ok none
    else if f > 0 then .ok (some f)
    else .error (.InvalidPassno t)
  | none => .error (.InvalidPassno t)

/-- Sequential consumption of the token stream, mirroring the field
order and short-circuiting of `MountEntry::from_str`. -/
def parseMountTokens (ts : List String) : Except LineError MountEntry :=
  match ts with
  | [] => .error .MissingSpec
  | [_] => .error .MissingFile
  | spec :: file :: rest =>
    let path := parsePath file
    if pathIsRelative path then .error (.InvalidFilePath file)
    else
      match rest with
      | [] => .error .MissingVfstype
      | vfstype :: rest2 =>
        match rest2 with
        | [] => .error .MissingMntops
        | mntopsTok :: rest3 =>
          let mntops := (splitTerm ',' mntopsTok).map
            (fun x => unwrapMntOps (MntOps.fromStr x))
          match rest3 with
          | [] => .error .MissingFreq
          | freqTok :: rest4 =>
            match parseFreqField freqTok with
            | .error e => .error e
            | .ok freq =>
              match rest4 with
              | [] => .error .MissingPassno
              | passnoTok :: _ =>
                match parsePassnoField passnoTok with
                | .error e => .error e
                | .ok passno =>
                  .ok { spec := spec, file := path, vfstype := vfstype,
                        mntops := mntops, freq := freq, passno := passno }

/-- Source `MountEntry::from_str`. -/
def mountEntryFromStr (line : String) : Except LineError MountEntry :=
  parseMountTokens (splitTokens line)

deriving instance DecidableEq for Except

/-- Search criteria (`Search` in the source). -/
inductive Search
  | Spec (s : String)
  | File (p : PathBuf)
  | Vfstype (s : String)
  | Mntopts (ops : List MntOps)
  | Freq (d : DumpField)
  | Passno (p : PassField)
deriving DecidableEq, Repr

/-- Source `matches`: field equality for five variants; for `Mntopts`,
the entry's options and the requested options are collected into sets
and the entry set must be a superset of the requested set. -/
def searchMatches (m : MountEntry) (s : Search) : Bool :=
  match s with
  | .Spec spec => decide (spec = m.spec)
  | .File file => decide (file = m.file)
  | .Vfstype vfstype => decide (vfstype = m.vfstype)
  | .Mntopts mntops => decide (mntops.toFinset ⊆ m.mntops.toFinset)
  | .Freq dumpfield => decide (dumpfield = m.freq)
  | .Passno passno => decide (passno = m.passno)

/-- The state of a `MountIter`: the enumeration counter, the remaining
line-read results of the backing reader (an `error` is an I/O failure),
and the optional attached search predicate. -/
structure MountIter where
  nb : Nat
  lines : List (Except String String)
  search : Option Search
deriving DecidableEq, Repr

/-- Body of `<MountIter as Iterator>::next`: read a line, surface I/O
and parse errors immediately, and when a search predicate is attached
loop past parsed entries that do not match it. -/
def iterNextAux (search : Option Search) :
    Nat → List (Except String String) →
    Option (Except ParseError MountEntry × MountIter)
  | _, [] => none
  | nb, l :: rest =>
    match l with
    | .error e => some (.error (.ioError e), ⟨nb + 1, rest, search⟩)
    | .ok line =>
      match mountEntryFromStr line with
      | .error e => some (.error (.lineError nb e), ⟨nb + 1, rest, search⟩)
      | .ok m =>
        match search with
        | some s =>
          if searchMatches m s then some (.ok m, ⟨nb + 1, rest, some s⟩)
          else iterNextAux (some s) (nb + 1) rest
        | none => some (.ok m, ⟨nb + 1, rest, none⟩)

def MountIter.next (it : MountIter) : Option (Except ParseError MountEntry × MountIter) :=
  iterNextAux it.search it.nb it.lines

/-- The `for` loop of `get_mount_from` over a search-free iterator:
remember the last entry whose `file` is a component prefix of `target`,
return the first error encountered. -/
def getMountLoop (target : PathBuf) (ret : Option MountEntry) :
    Nat → List (Except String String) → Except ParseError (Option MountEntry)
  | _, [] => .ok ret
  | nb, l :: rest =>
    match l with
    | .error e => .error (.ioError e)
    | .ok line =>
      match mountEntryFromStr line with
      | .error e => .error (.lineError nb e)
      | .ok m =>
        getMountLoop target (if m.file.isPrefixOf target then some m else ret) (nb + 1) rest

/-- Source `get_mount_from`, applied to the iterator
`MountIter::new(..)` (no search attached, counter at 0) over the given
line source. -/
def get_mount_from (target : PathBuf) (lines : List (Except String String)) :
    Except ParseError (Option MountEntry) :=
  getMountLoop target none 0 lines

/-- Source `get_mount`: `get_mount_from` over the contents of
the */proc/mounts* line source, which is passed here as a parameter. -/
def get_mount (procMounts : List (Except String String)) (target : PathBuf) :
    Except ParseError (Option MountEntry) :=
  get_mount_from target procMounts

/-- Source `get_mount_writable`: a best-effort query that treats any
`get_mount` failure as "no answer" and, when `writable` is set, also
requires the `Write(true)` option. -/
def get_mount_writable (procMounts : List (Except String String))
    (target : PathBuf) (writable : Bool) : Option MountEntry :=
  match get_mount procMounts target with
  | .ok (some m) =>
    if !writable || m.mntops.contains (MntOps.Write writable) then some m else none
  | _ => none

/-- The source's exclusion test
`exclude_files.iter().skip_while(|x| file != x).next().is_some()`. -/
def excludeHit (exclude_files : List PathBuf) (file : PathBuf) : Bool :=
  ((exclude_files.dropWhile (fun x => decide (file ≠ x))).head?).isSome

/-- The inner `'filter` loop of `remove_overlaps`: an already-accepted
entry shadows `m` when its `file` is not an excluded path and is a
component prefix of `m.file`. -/
def overlapShadowed (exclude_files : List PathBuf) (sorted : List MountEntry)
    (m : MountEntry) : Bool :=
  sorted.any (fun ms => !(excludeHit exclude_files ms.file) && ms.file.isPrefixOf m.file)

/-- The `'list` loop of `remove_overlaps`, running over the reversed
input and accumulating accepted entries in `sorted`. -/
def removeOverlapsLoop (exclude_files : List PathBuf) :
    List MountEntry → List MountEntry → List MountEntry
  | sorted, [] => sorted
  | sorted, m :: rest =>
    if m.file = rootPath then removeOverlapsLoop exclude_files sorted rest
    else if overlapShadowed exclude_files sorted m then
      removeOverlapsLoop exclude_files sorted rest
    else removeOverlapsLoop exclude_files (sorted ++ [m]) rest

/-- Source `remove_overlaps` of `impl VecMountEntry for Vec<MountEntry>`. -/
def remove_overlaps (mounts : List MountEntry) (exclude_files : List PathBuf) :
    List MountEntry :=
  (removeOverlapsLoop exclude_files [] mounts.reverse).reverse

/-- Modelled from the spec's words for the Overlap Reducer (claim C2):
scanning from most to least recent, drop entries at the root path, drop
an entry when an already-accepted entry has a path that is an
ancestor-or-equal of its path and is not an excluded path, and return
survivors in chronological order. -/
def removeOverlapsSpecLoop (excluded : List PathBuf) :
    List MountEntry → List MountEntry → List MountEntry
  | accepted, [] => accepted
  | accepted, m :: rest =>
    if m.file = rootPath then removeOverlapsSpecLoop excluded accepted rest
    else if accepted.any (fun a => decide (a.file ∉ excluded) && decide (a.file <+: m.file)) then
      removeOverlapsSpecLoop excluded accepted rest
    else removeOverlapsSpecLoop excluded (accepted ++ [m]) rest

/-- Spec-side companion of `remove_overlaps`, following the words of
claim C2. -/
def removeOverlapsSpec (mounts : List MountEntry) (excluded : List PathBuf) :
    List MountEntry :=
  (removeOverlapsSpecLoop excluded [] mounts.reverse).reverse

/-- Rust `Ordering` comparison on `Nat`, used to model byte and
component comparisons. -/
def natCmp (a b : Nat) : Ordering :=
  if a < b then .lt else if a = b then .eq else .gt

def charCmp (a b : Char) : Ordering := natCmp a.toNat b.toNat

/-- Generic lexicographic list comparison (Rust's `Iterator::cmp`). -/
def listCmp (f : α → α → Ordering) : List α → List α → Ordering
  | [], [] => .eq
  | [], _ :: _ => .lt
  | _ :: _, [] => .gt
  | a :: xs, b :: ys =>
    match f a b with
    | .eq => listCmp f xs ys
    | o => o

def strCmp (a b : String) : Ordering := listCmp charCmp a.data b.data

/-- Rust's derived ordering on `std::path::Component`
(`RootDir < CurDir < ParentDir < Normal`, `Normal` by contents). -/
def componentCmp : Component → Component → Ordering
  | .rootDir, .rootDir => .eq
  | .rootDir, _ => .lt
  | _, .rootDir => .gt
  | .curDir, .curDir => .eq
  | .curDir, _ => .lt
  | _, .curDir => .gt
  | .parentDir, .parentDir => .eq
  | .parentDir, .normal _ => .lt
  | .normal _, .parentDir => .gt
  | .normal a, .normal b => strCmp a b

/-- Rust `Path::cmp`: lexicographic comparison of components. -/
def pathCmp (a b : PathBuf) : Ordering := listCmp componentCmp a b

/-- Source `impl Ord for MountEntry`: comparison looks only at `file`. -/
def MountEntry.cmp (a b : MountEntry) : Ordering := pathCmp a.file b.file

/-- The mount table used by the crate's own `test_proc_mounts_from`. -/
def demoLines : List (Except String String) :=
  [.ok "rootfs / rootfs rw 0 0",
   .ok "sysfs /sys sysfs rw,nosuid,nodev,noexec,relatime 0 0",
   .ok "tmpfs /sys/fs/cgroup tmpfs ro,nosuid,nodev,noexec,mode=755 0 0",
   .ok "udev /dev devtmpfs rw,relatime,size=10240k,nr_inodes=505357,mode=755 0 0",
   .ok "tmpfs /run tmpfs rw,nosuid,relatime,size=809928k,mode=755 0 0",
   .ok "/dev/mapper/foo-tmp /var/tmp ext4 rw,relatime,data=ordered 0 0"]

/-- The `/var/tmp` entry of the demo table. -/
def vartmpEntry : MountEntry :=
  { spec := "/dev/mapper/foo-tmp",
    file := [Component.rootDir, Component.normal "var", Component.normal "tmp"],
    vfstype := "ext4",
    mntops := [MntOps.Write true, MntOps.RelAtime true, MntOps.Extra "data=ordered"],
    freq := DumpField.Ignore, passno := none }

/-- The root entry of the demo table. -/
def rootEntry : MountEntry :=
  { spec := "rootfs", file := [Component.rootDir], vfstype := "rootfs",
    mntops := [MntOps.Write true], freq := DumpField.Ignore, passno := none }

/-- The `/sys` entry of the demo table. -/
def sysfsEntry : MountEntry :=
  { spec := "sysfs", file := [Component.rootDir, Component.normal "sys"], vfstype := "sysfs",
    mntops := [MntOps.Write true, MntOps.Suid false, MntOps.Dev false, MntOps.Exec false,
               MntOps.RelAtime true],
    freq := DumpField.Ignore, passno := none }

section SanityChecks

example : splitTokens "rootfs / rootfs rw 0 0" = ["rootfs", "/", "rootfs", "rw", "0", "0"] := by
  decide

example :
    mountEntryFromStr "rootfs / rootfs rw 0 0" =
      .ok { spec := "rootfs", file := [Component.rootDir], vfstype := "rootfs",
            mntops := [MntOps.Write true], freq := DumpField.Ignore, passno := none } := by
  decide

example :
    mountEntryFromStr "rootfs   / rootfs rw 0 0" =
      mountEntryFromStr "rootfs / rootfs rw 0 0" := by decide

example :
    mountEntryFromStr "rootfs\t/ rootfs rw 0 0" =
      mountEntryFromStr "rootfs / rootfs rw 0 0" := by decide

example :
    mountEntryFromStr "rootfs / rootfs rw, 0 0" =
      mountEntryFromStr "rootfs / rootfs rw 0 0" := by decide

example :
    mountEntryFromStr "rootfs / rootfs noexec,rw 0 0" =
      .ok { spec := "rootfs", file := [Component.rootDir], vfstype := "rootfs",
            mntops := [MntOps.Exec false, MntOps.Write true], freq := DumpField.Ignore,
            passno := none } := by
  decide

example : mountEntryFromStr "rootfs ./ rootfs rw 0 0" = .error (.InvalidFilePath "./") := by
  decide

example : mountEntryFromStr "rootfs foo rootfs rw 0 0" = .error (.InvalidFilePath "foo") := by
  decide

example : mountEntryFromStr "/dev/mapper/swap none swap sw 0 0" =
    .error (.InvalidFilePath "none") := by decide

example : parsePath "/var/tmp" =
    [Component.rootDir, Component.normal "var", Component.normal "tmp"] := by decide

example : parsePath "/var/" = [Component.rootDir, Component.normal "var"] := by decide

end SanityChecks

/-! ### Helper lemmas -/

theorem natCmp_self (n : Nat) : natCmp n n = .eq := by
  simp [natCmp]

theorem charCmp_self (c : Char) : charCmp c c = .eq := by
  simp [charCmp, natCmp_self]

theorem listCmp_self (f : α → α → Ordering) (h : ∀ x, f x x = .eq) (l : List α) :
    listCmp f l l = .eq := by
  induction l with
  | nil => rfl
  | cons a xs ih => simp [listCmp, h a, ih]

theorem componentCmp_self (c : Component) : componentCmp c c = .eq := by
  cases c with
  | normal s => exact listCmp_self charCmp charCmp_self s.data
  | _ => rfl

theorem pathCmp_self (p : PathBuf) : pathCmp p p = .eq :=
  listCmp_self componentCmp componentCmp_self p

/-! ### C10: ordering on MountEntry looks only at the file field -/

/-- Claim C10: structural equality of `MountEntry` compares all six
fields, while `Ord for MountEntry` compares only `file`; hence two
entries with equal `file` but a differing other field compare `Equal`
without being equal. -/
theorem c10_cmp_eq_without_structural_eq :
    (∀ a b : MountEntry,
      a = b ↔ a.spec = b.spec ∧ a.file = b.file ∧ a.vfstype = b.vfstype ∧
        a.mntops = b.mntops ∧ a.freq = b.freq ∧ a.passno = b.passno) ∧
    (∀ a b : MountEntry, a.file = b.file →
      (a.spec ≠ b.spec ∨ a.vfstype ≠ b.vfstype ∨ a.mntops ≠ b.mntops ∨
        a.freq ≠ b.freq ∨ a.passno ≠ b.passno) →
      MountEntry.cmp a b = .eq ∧ a ≠ b) := by
  constructor
  · intro a b
    cases a; cases b
    simp [MountEntry.mk.injEq]
  · intro a b hfile hdiff
    constructor
    · simp [MountEntry.cmp, hfile, pathCmp_self]
    · intro h
      subst h
      rcases hdiff with h | h | h | h | h <;> exact h rfl

/-- Witness for C10 at a concrete pair: same `file`, different `spec`. -/
theorem c10_witness :
    MountEntry.cmp rootEntry { rootEntry with spec := "other" } = .eq ∧
      rootEntry ≠ { rootEntry with spec := "other" } :=
  c10_cmp_eq_without_structural_eq.2 rootEntry { rootEntry with spec := "other" }
    (by rfl) (Or.inl (by decide))

/-! ### C8: option-token parsing is total -/

/-- The fourteen recognized toggle spellings. -/
def knownMntOpsTokens : List String :=
  ["atime", "noatime", "diratime", "nodiratime", "relatime", "norelatime",
   "dev", "nodev", "exec", "noexec", "suid", "nosuid", "rw", "ro"]

/-- Claim C8: `MntOps::from_str` returns `Ok` on every token, mapping
the fourteen toggle spellings as listed and everything else to `Extra`;
the `.unwrap()` in `MountEntry::from_str` therefore never takes its
panic branch. -/
theorem c8_mntops_token_never_fails :
    (∀ t : String, MntOps.fromStr t = .ok (mntOpsToken t)) ∧
    (∀ t : String, (MntOps.fromStr t).isOk = true) ∧
    (∀ t : String, unwrapMntOps (MntOps.fromStr t) = mntOpsToken t) ∧
    (mntOpsToken "atime" = .Atime true ∧ mntOpsToken "noatime" = .Atime false ∧
     mntOpsToken "diratime" = .DirAtime true ∧ mntOpsToken "nodiratime" = .DirAtime false ∧
     mntOpsToken "relatime" = .RelAtime true ∧ mntOpsToken "norelatime" = .RelAtime false ∧
     mntOpsToken "dev" = .Dev true ∧ mntOpsToken "nodev" = .Dev false ∧
     mntOpsToken "exec" = .Exec true ∧ mntOpsToken "noexec" = .Exec false ∧
     mntOpsToken "suid" = .Suid true ∧ mntOpsToken "nosuid" = .Suid false ∧
     mntOpsToken "rw" = .Write true ∧ mntOpsToken "ro" = .Write false) ∧
    (∀ t : String, t ∉ knownMntOpsTokens → mntOpsToken t = .Extra t) := by
  refine ⟨fun t => rfl, fun t => rfl, fun t => rfl, by decide, ?_⟩
  intro t ht
  simp only [knownMntOpsTokens, List.mem_cons, List.not_mem_nil, or_false, not_or] at ht
  unfold mntOpsToken
  split <;> simp_all

/-- Witness for C8 at an unrecognized token. -/
theorem c8_witness : mntOpsToken "size=10240k" = .Extra "size=10240k" :=
  c8_mntops_token_never_fails.2.2.2.2 "size=10240k" (by decide)

/-! ### C9: Mntopts search is a dedup-set superset test -/

/-- Claim C9: the `Mntopts` search variant matches exactly when the
deduplicated option set of the entry contains the deduplicated requested
set; order and duplicates on either side are irrelevant, extra entry
options never block a match, and a requested option missing from the
entry always blocks it. -/
theorem c9_mntopts_superset_match :
    (∀ (m : MountEntry) (req : List MntOps),
      searchMatches m (.Mntopts req) = true ↔ ∀ op ∈ req, op ∈ m.mntops) ∧
    (∀ (m : MountEntry) (req : List MntOps),
      searchMatches m (.Mntopts req) = true ↔
        req.dedup.toFinset ⊆ m.mntops.dedup.toFinset) ∧
    (∀ (m : MountEntry) (req₁ req₂ : List MntOps), req₁.toFinset = req₂.toFinset →
      searchMatches m (.Mntopts req₁) = searchMatches m (.Mntopts req₂)) ∧
    (∀ (m₁ m₂ : MountEntry) (req : List MntOps), m₁.mntops.toFinset = m₂.mntops.toFinset →
      searchMatches m₁ (.Mntopts req) = searchMatches m₂ (.Mntopts req)) ∧
    (∀ (m : MountEntry) (req : List MntOps) (op : MntOps), op ∈ req → op ∉ m.mntops →
      searchMatches m (.Mntopts req) = false) := by
  have hmem : ∀ (m : MountEntry) (req : List MntOps),
      searchMatches m (.Mntopts req) = true ↔ ∀ op ∈ req, op ∈ m.mntops := by
    intro m req
    simp [searchMatches, Finset.subset_iff]
  refine ⟨hmem, ?_, ?_, ?_, ?_⟩
  · intro m req
    rw [hmem]
    simp [Finset.subset_iff]
  · intro m req₁ req₂ h
    simp [searchMatches, h]
  · intro m₁ m₂ req h
    simp [searchMatches, h]
  · intro m req op hin hout
    rw [Bool.eq_false_iff]
    intro h
    exact hout ((hmem m req).mp h op hin)

/-- Witness for C9: the crate's own superset example (options of the
`/sys` entry versus a four-option request), and a blocked match. -/
theorem c9_witness :
    searchMatches sysfsEntry
      (.Mntopts [MntOps.Write true, MntOps.Suid false, MntOps.Dev false, MntOps.Exec false]) =
        true ∧
    searchMatches sysfsEntry (.Mntopts [MntOps.Write true, MntOps.Atime false]) = false :=
  ⟨(c9_mntopts_superset_match.1 sysfsEntry _).mpr (by decide),
   c9_mntopts_superset_match.2.2.2.2 sysfsEntry _ (MntOps.Atime false) (by decide) (by decide)⟩

/-! ### Parser shape lemmas -/

theorem parseFreqField_error (t : String) (e : LineError) :
    parseFreqField t = .error e → e = .InvalidFreq t := by
  unfold parseFreqField
  split <;> intro h <;> simp_all

theorem parsePassnoField_error (t : String) (e : LineError) :
    parsePassnoField t = .error e → e = .InvalidPassno t := by
  unfold parsePassnoField
  split
  · split <;> intro h <;> simp_all
    split at h <;> simp_all
  · intro h
    simp_all

theorem parseMountTokens_ok_file (s f : String) (rest : List String) (m : MountEntry) :
    parseMountTokens (s :: f :: rest) = .ok m →
    m.file = parsePath f ∧ pathIsRelative (parsePath f) = false := by
  intro hok
  unfold parseMountTokens at hok
  by_cases hrel : pathIsRelative (parsePath f) = true
  · simp [hrel] at hok
  · simp only [Bool.not_eq_true] at hrel
    simp only [hrel, Bool.false_eq_true, if_false] at hok
    rcases rest with _ | ⟨v, rest2⟩
    · simp at hok
    rcases rest2 with _ | ⟨mo, rest3⟩
    · simp at hok
    rcases rest3 with _ | ⟨fq, rest4⟩
    · simp at hok
    cases hfq : parseFreqField fq with
    | error e => simp [hfq] at hok
    | ok fr =>
      simp only [hfq] at hok
      rcases rest4 with _ | ⟨pn, rest5⟩
      · simp at hok
      cases hpn : parsePassnoField pn with
      | error e => simp [hpn] at hok
      | ok pv =>
        simp only [hpn, Except.ok.injEq] at hok
        subst hok
        exact ⟨rfl, hrel⟩

theorem parseMountTokens_never_invalid_file (ts : List String) (t : String) :
    parseMountTokens ts ≠ .error (.InvalidFile t) := by
  rcases ts with _ | ⟨s, _ | ⟨f, rest⟩⟩
  · simp [parseMountTokens]
  · simp [parseMountTokens]
  unfold parseMountTokens
  by_cases hrel : pathIsRelative (parsePath f) = true
  · simp [hrel]
  · simp only [Bool.not_eq_true] at hrel
    simp only [hrel, Bool.false_eq_true, if_false]
    rcases rest with _ | ⟨v, rest2⟩
    · simp
    rcases rest2 with _ | ⟨mo, rest3⟩
    · simp
    rcases rest3 with _ | ⟨fq, rest4⟩
    · simp
    cases hfq : parseFreqField fq with
    | error e =>
      have he := parseFreqField_error fq e hfq
      simp [hfq, he]
    | ok fr =>
      simp only [hfq]
      rcases rest4 with _ | ⟨pn, rest5⟩
      · simp
      cases hpn : parsePassnoField pn with
      | error e =>
        have he := parsePassnoField_error pn e hpn
        simp [hpn, he]
      | ok pv => simp [hpn]

/-! ### C7: absolute-path requirement on the file field -/

/-- Claim C7: for the second token of a line, a relative path yields
`InvalidFilePath` carrying that token, an absolute path is accepted as
the entry's `file`, and — since every token is interpretable as a path
by `PathBuf::from` — the `InvalidFile` error is never produced; the
three concrete example lines behave as the spec states. -/
theorem c7_file_field_absolute_path :
    (∀ (line s f : String) (rest : List String),
      splitTokens line = s :: f :: rest →
      pathIsRelative (parsePath f) = true →
      mountEntryFromStr line = .error (.InvalidFilePath f)) ∧
    (∀ (line s f : String) (rest : List String) (m : MountEntry),
      splitTokens line = s :: f :: rest →
      mountEntryFromStr line = .ok m →
      m.file = parsePath f ∧ pathIsRelative m.file = false) ∧
    (∀ line t : String, mountEntryFromStr line ≠ .error (.InvalidFile t)) ∧
    mountEntryFromStr "rootfs ./ rootfs rw 0 0" = .error (.InvalidFilePath "./") ∧
    mountEntryFromStr "rootfs foo rootfs rw 0 0" = .error (.InvalidFilePath "foo") ∧
    mountEntryFromStr "rootfs / rootfs rw 0 0" =
      .ok { spec := "rootfs", file := [Component.rootDir], vfstype := "rootfs",
            mntops := [MntOps.Write true], freq := DumpField.Ignore, passno := none } := by
  refine ⟨?_, ?_, ?_, by decide, by decide, by decide⟩
  · intro line s f rest h hrel
    simp [mountEntryFromStr, h, parseMountTokens, hrel]
  · intro line s f rest m h hok
    rw [mountEntryFromStr, h] at hok
    obtain ⟨h1, h2⟩ := parseMountTokens_ok_file s f rest m hok
    exact ⟨h1, h1 ▸ h2⟩
  · intro line t
    rw [mountEntryFromStr]
    exact parseMountTokens_never_invalid_file _ t

/-- Witness for C7: the relative-path case applied at the spec's first
example line. -/
theorem c7_witness :
    mountEntryFromStr "rootfs ./ rootfs rw 0 0" = .error (.InvalidFilePath "./") :=
  c7_file_field_absolute_path.1 "rootfs ./ rootfs rw 0 0" "rootfs" "./" ["rootfs", "rw", "0", "0"]
    (by decide) (by decide)

/-! ### C6: left-to-right missing-field errors -/

/-- The Missing error of field `k + 1` for a line with exactly `k`
tokens. -/
def missingFor : Nat → LineError
  | 0 => .MissingSpec
  | 1 => .MissingFile
  | 2 => .MissingVfstype
  | 3 => .MissingMntops
  | 4 => .MissingFreq
  | _ => .MissingPassno

/-- The 1-based field a `LineError` belongs to. -/
def errFieldIdx : LineError → Nat
  | .MissingSpec => 1
  | .MissingFile => 2
  | .InvalidFilePath _ => 2
  | .InvalidFile _ => 2
  | .MissingVfstype => 3
  | .MissingMntops => 4
  | .MissingFreq => 5
  | .InvalidFreq _ => 5
  | .MissingPassno => 6
  | .InvalidPassno _ => 6

/-- The tokens present on a short line are themselves valid for their
fields: the file token (when present) is absolute, and the freq token
(when present) parses as 0 or 1. -/
def tokensFieldOk (ts : List String) : Prop :=
  (2 ≤ ts.length → pathIsRelative (parsePath (ts.getD 1 "")) = false) ∧
  (5 ≤ ts.length → parseI32 (ts.getD 4 "") = some 0 ∨ parseI32 (ts.getD 4 "") = some 1)

theorem parseFreqField_ok_of_valid (t : String)
    (h : parseI32 t = some 0 ∨ parseI32 t = some 1) :
    parseFreqField t = .ok .Ignore ∨ parseFreqField t = .ok .Backup := by
  rcases h with h | h <;> simp [parseFreqField, h]

/-- Claim C6 (amended): a line with exactly `k < 6` non-empty tokens
always fails to parse with an error belonging to field `k + 1` or to an
earlier field; when the tokens that are present are themselves valid for
their fields, the error is exactly the Missing error of field `k + 1`. -/
theorem c6_missing_field_precedence :
    ∀ line : String, (splitTokens line).length < 6 →
      (∃ e, mountEntryFromStr line = .error e ∧
        errFieldIdx e ≤ (splitTokens line).length + 1) ∧
      (tokensFieldOk (splitTokens line) →
        mountEntryFromStr line = .error (missingFor (splitTokens line).length)) := by
  intro line hlen
  rw [mountEntryFromStr]
  rcases hts : splitTokens line with _ | ⟨a, _ | ⟨b, _ | ⟨c, _ | ⟨d, _ | ⟨e, _ | ⟨f, rest⟩⟩⟩⟩⟩⟩
  · exact ⟨⟨.MissingSpec, rfl, by simp [errFieldIdx]⟩, fun _ => rfl⟩
  · exact ⟨⟨.MissingFile, rfl, by simp [errFieldIdx]⟩, fun _ => rfl⟩
  · by_cases hrel : pathIsRelative (parsePath b) = true
    · refine ⟨⟨.InvalidFilePath b, by simp [parseMountTokens, hrel], by simp [errFieldIdx]⟩, ?_⟩
      intro hok
      have := hok.1 (by simp)
      simp at this
      rw [this] at hrel
      simp at hrel
    · simp only [Bool.not_eq_true] at hrel
      exact ⟨⟨.MissingVfstype, by simp [parseMountTokens, hrel], by simp [errFieldIdx]⟩,
        fun _ => by simp [parseMountTokens, hrel, missingFor]⟩
  · by_cases hrel : pathIsRelative (parsePath b) = true
    · refine ⟨⟨.InvalidFilePath b, by simp [parseMountTokens, hrel], by simp [errFieldIdx]⟩, ?_⟩
      intro hok
      have := hok.1 (by simp)
      simp at this
      rw [this] at hrel
      simp at hrel
    · simp only [Bool.not_eq_true] at hrel
      exact ⟨⟨.MissingMntops, by simp [parseMountTokens, hrel], by simp [errFieldIdx]⟩,
        fun _ => by simp [parseMountTokens, hrel, missingFor]⟩
  · by_cases hrel : pathIsRelative (parsePath b) = true
    · refine ⟨⟨.InvalidFilePath b, by simp [parseMountTokens, hrel], by simp [errFieldIdx]⟩, ?_⟩
      intro hok
      have := hok.1 (by simp)
      simp at this
      rw [this] at hrel
      simp at hrel
    · simp only [Bool.not_eq_true] at hrel
      exact ⟨⟨.MissingFreq, by simp [parseMountTokens, hrel], by simp [errFieldIdx]⟩,
        fun _ => by simp [parseMountTokens, hrel, missingFor]⟩
  · by_cases hrel : pathIsRelative (parsePath b) = true
    · refine ⟨⟨.InvalidFilePath b, by simp [parseMountTokens, hrel], by simp [errFieldIdx]⟩, ?_⟩
      intro hok
      have := hok.1 (by simp)
      simp at this
      rw [this] at hrel
      simp at hrel
    · simp only [Bool.not_eq_true] at hrel
      cases hfq : parseFreqField e with
      | error ee =>
        have hee := parseFreqField_error e ee hfq
        refine ⟨⟨ee, by simp [parseMountTokens, hrel, hfq], by simp [hee, errFieldIdx]⟩, ?_⟩
        intro hok
        have hv := hok.2 (by simp)
        simp at hv
        rcases parseFreqField_ok_of_valid e hv with h | h <;> rw [h] at hfq <;> exact absurd hfq (by simp)
      | ok fr =>
        exact ⟨⟨.MissingPassno, by simp [parseMountTokens, hrel, hfq], by simp [errFieldIdx]⟩,
          fun _ => by simp [parseMountTokens, hrel, hfq, missingFor]⟩
  · exfalso
    rw [hts] at hlen
    simp at hlen
    omega

/-- Counterexample to C6 as stated: the two-token line `"rootfs ./"`
fails with the field-2 error `InvalidFilePath "./"`, not with the
Missing error of field 3 (`MissingVfstype`). -/
theorem c6_counterexample :
    (splitTokens "rootfs ./").length = 2 ∧
    mountEntryFromStr "rootfs ./" = .error (.InvalidFilePath "./") ∧
    mountEntryFromStr "rootfs ./" ≠ .error .MissingVfstype := by
  refine ⟨by decide, by decide, by decide⟩

/-- Witness for C6 at the two-token line `"rootfs /"`, whose present
tokens are valid. -/
theorem c6_witness :
    mountEntryFromStr "rootfs /" = .error (missingFor (splitTokens "rootfs /").length) :=
  (c6_missing_field_precedence "rootfs /" (by decide)).2
    ⟨fun _ => by decide, fun h => absurd h (by decide)⟩

/-! ### C5: get_mount_writable is a best-effort query -/

/-- Claim C5: `get_mount_writable` never propagates a parse or I/O
error — a failed table scan yields `none` — and with the writable flag
set it yields an entry only when that entry's options contain
`Write(true)`, and `none` otherwise. -/
theorem c5_writable_never_propagates_errors :
    ∀ (lines : List (Except String String)) (target : PathBuf) (w : Bool),
      ((get_mount lines target).isOk = false → get_mount_writable lines target w = none) ∧
      (∀ m, get_mount_writable lines target true = some m →
        m.mntops.contains (MntOps.Write true) = true) ∧
      (∀ m, get_mount lines target = .ok (some m) →
        m.mntops.contains (MntOps.Write true) = false →
        get_mount_writable lines target true = none) := by
  intro lines target w
  cases hgm : get_mount lines target with
  | error e =>
    refine ⟨fun _ => ?_, fun m hm => ?_, fun m hm _ => ?_⟩
    · simp [get_mount_writable, hgm]
    · simp [get_mount_writable, hgm] at hm
    · simp [get_mount_writable, hgm]
  | ok ret =>
    refine ⟨fun hcontra => by simp [Except.isOk, Except.toBool, hgm] at hcontra,
      fun m hm => ?_, fun m hm hw => ?_⟩
    · cases ret with
      | none => simp [get_mount_writable, hgm] at hm
      | some m0 =>
        simp only [get_mount_writable, hgm, Bool.not_true, Bool.false_or] at hm
        by_cases hc : m0.mntops.contains (MntOps.Write true) = true
        · simp only [hc, if_true] at hm
          injection hm with hm
          subst hm
          exact hc
        · simp only [Bool.not_eq_true] at hc
          rw [hc] at hm
          simp at hm
    · injection hm with hm
      subst hm
      have hw2 : MntOps.Write true ∉ m.mntops := by simpa using hw
      simp [get_mount_writable, hgm, hw2]

/-- Witness for C5: an I/O failure of the line source becomes "no
answer". -/
theorem c5_witness :
    get_mount_writable [Except.error "io failure"] rootPath true = none :=
  (c5_writable_never_propagates_errors [Except.error "io failure"] rootPath true).1 (by decide)

/-! ### C4: a search predicate skips entries, never errors -/

/-- A line-read result the searching iterator skips: a successfully
parsed entry that does not match the predicate. -/
def skippable (s : Search) (x : Except String String) : Bool :=
  match x with
  | .error _ => false
  | .ok line =>
    match mountEntryFromStr line with
    | .error _ => false
    | .ok m => !(searchMatches m s)

/-- Claim C4: with an attached search predicate, `MountIter::next` skips
successfully parsed non-matching entries and yields only matching ones,
while any I/O or parse error — also one occurring after skipped lines —
is yielded immediately and never filtered out. -/
theorem c4_search_never_skips_errors :
    ∀ s : Search,
      (∀ it : MountIter, it.next = iterNextAux it.search it.nb it.lines) ∧
      (∀ (nb : Nat) (items : List (Except String String)) (m : MountEntry)
          (st : MountIter),
        iterNextAux (some s) nb items = some (.ok m, st) → searchMatches m s = true) ∧
      (∀ (nb : Nat) (pre items : List (Except String String)),
        pre.all (skippable s) = true →
        iterNextAux (some s) nb (pre ++ items) =
          iterNextAux (some s) (nb + pre.length) items) ∧
      (∀ (nb : Nat) (e : String) (rest : List (Except String String)),
        iterNextAux (some s) nb (.error e :: rest) =
          some (.error (.ioError e), ⟨nb + 1, rest, some s⟩)) ∧
      (∀ (nb : Nat) (line : String) (le : LineError) (rest : List (Except String String)),
        mountEntryFromStr line = .error le →
        iterNextAux (some s) nb (.ok line :: rest) =
          some (.error (.lineError nb le), ⟨nb + 1, rest, some s⟩)) ∧
      (∀ (nb : Nat) (line : String) (m : MountEntry) (rest : List (Except String String)),
        mountEntryFromStr line = .ok m → searchMatches m s = true →
        iterNextAux (some s) nb (.ok line :: rest) = some (.ok m, ⟨nb + 1, rest, some s⟩)) := by
  intro s
  refine ⟨fun it => rfl, ?_, ?_, ?_, ?_, ?_⟩
  · intro nb items
    induction items generalizing nb with
    | nil => intro m st h; simp [iterNextAux] at h
    | cons x rest ih =>
      intro m st h
      cases x with
      | error e => simp [iterNextAux] at h
      | ok line =>
        cases hp : mountEntryFromStr line with
        | error e => simp [iterNextAux, hp] at h
        | ok m' =>
          by_cases hmt : searchMatches m' s = true
          · simp only [iterNextAux, hp, hmt, if_true] at h
            obtain ⟨h1, -⟩ := Prod.mk.injEq .. ▸ (Option.some.injEq .. ▸ h)
            injection h1 with h1
            subst h1
            exact hmt
          · simp only [Bool.not_eq_true] at hmt
            simp only [iterNextAux, hp, hmt, Bool.false_eq_true, if_false] at h
            exact ih (nb + 1) m st h
  · intro nb pre items hall
    induction pre generalizing nb with
    | nil => simp
    | cons x pr ih =>
      rw [List.all_cons, Bool.and_eq_true] at hall
      obtain ⟨hx, hpr⟩ := hall
      cases x with
      | error e => simp [skippable] at hx
      | ok line =>
        cases hp : mountEntryFromStr line with
        | error e => simp [skippable, hp] at hx
        | ok m' =>
          simp only [skippable, hp, Bool.not_eq_true'] at hx
          have hstep : iterNextAux (some s) nb ((Except.ok line :: pr) ++ items) =
              iterNextAux (some s) (nb + 1) (pr ++ items) := by
            simp [iterNextAux, hp, hx]
          rw [hstep, ih (nb + 1) hpr]
          congr 1
          simp only [List.length_cons]
          omega
  · intro nb e rest
    rfl
  · intro nb line le rest hp
    simp [iterNextAux, hp]
  · intro nb line m rest hp hmt
    simp [iterNextAux, hp, hmt]

/-- Witness for C4: a parse error on a line that would not have matched
the predicate is yielded immediately. -/
theorem c4_witness :
    iterNextAux (some (Search.Vfstype "ext4")) 0 [.ok "bad line"] =
      some (.error (.lineError 0 (.InvalidFilePath "line")),
        ⟨1, [], some (Search.Vfstype "ext4")⟩) :=
  (c4_search_never_skips_errors (Search.Vfstype "ext4")).2.2.2.2.1 0 "bad line"
    (.InvalidFilePath "line") [] (by decide)

/-! ### C1: get_mount is a last-prefix match, not an exact match -/

/-- A line-read result that parses successfully. -/
def parsedOk (x : Except String String) : Bool :=
  match x with
  | .ok line => (mountEntryFromStr line).isOk
  | .error _ => false

/-- The entry parsed from a line-read result, if any. -/
def entryOf? (x : Except String String) : Option MountEntry :=
  match x with
  | .ok line => (mountEntryFromStr line).toOption
  | .error _ => none

/-- The parsed entries whose `file` is a component prefix of `target`,
in table order. -/
def matchedEntries (target : PathBuf) (lines : List (Except String String)) :
    List MountEntry :=
  (lines.filterMap entryOf?).filter (fun m => m.file.isPrefixOf target)

/-- Rust's `Option::or`. -/
def optOr : Option α → Option α → Option α
  | some x, _ => some x
  | none, b => b

theorem optOr_none_right (a : Option α) : optOr a none = a := by
  cases a <;> rfl

theorem optOr_assoc (a b c : Option α) : optOr (optOr a b) c = optOr a (optOr b c) := by
  cases a <;> rfl

theorem getLast?_cons_optOr (m : α) (l : List α) :
    (m :: l).getLast? = optOr l.getLast? (some m) := by
  induction l generalizing m with
  | nil => rfl
  | cons b t ih =>
    rw [List.getLast?_cons_cons, ih b]
    cases t.getLast? <;> rfl

theorem getMountLoop_all_ok (target : PathBuf) :
    ∀ (lines : List (Except String String)) (ret : Option MountEntry) (nb : Nat),
      lines.all parsedOk = true →
      getMountLoop target ret nb lines =
        .ok (optOr (matchedEntries target lines).getLast? ret) := by
  intro lines
  induction lines with
  | nil => intro ret nb _; simp [getMountLoop, matchedEntries, optOr]
  | cons x rest ih =>
    intro ret nb hall
    rw [List.all_cons, Bool.and_eq_true] at hall
    obtain ⟨hx, hrest⟩ := hall
    cases x with
    | error e => simp [parsedOk] at hx
    | ok line =>
      cases hp : mountEntryFromStr line with
      | error e => simp [parsedOk, hp, Except.isOk, Except.toBool] at hx
      | ok m =>
        have hm : matchedEntries target (Except.ok line :: rest) =
            if m.file.isPrefixOf target then m :: matchedEntries target rest
            else matchedEntries target rest := by
          simp only [matchedEntries, entryOf?, List.filterMap_cons, hp, Except.toOption]
          by_cases hpre : m.file.isPrefixOf target = true
          · simp [List.filter_cons, hpre]
          · simp only [Bool.not_eq_true] at hpre
            simp [List.filter_cons, hpre]
        have hstep : getMountLoop target ret nb (Except.ok line :: rest) =
            getMountLoop target (if m.file.isPrefixOf target then some m else ret)
              (nb + 1) rest := by
          simp [getMountLoop, hp]
        rw [hstep, ih _ (nb + 1) hrest, hm]
        by_cases hpre : m.file.isPrefixOf target = true
        · simp only [hpre, if_true]
          rw [getLast?_cons_optOr, optOr_assoc]
          rfl
        · simp only [Bool.not_eq_true] at hpre
          simp [hpre]

theorem getMountLoop_io_error (target : PathBuf) :
    ∀ (pre : List (Except String String)) (nb : Nat) (ret : Option MountEntry)
      (e : String) (rest : List (Except String String)),
      pre.all parsedOk = true →
      getMountLoop target ret nb (pre ++ .error e :: rest) = .error (.ioError e) := by
  intro pre
  induction pre with
  | nil => intro nb ret e rest _; rfl
  | cons x pr ih =>
    intro nb ret e rest hall
    rw [List.all_cons, Bool.and_eq_true] at hall
    obtain ⟨hx, hpr⟩ := hall
    cases x with
    | error e0 => simp [parsedOk] at hx
    | ok line =>
      cases hp : mountEntryFromStr line with
      | error e0 => simp [parsedOk, hp, Except.isOk, Except.toBool] at hx
      | ok m =>
        have hstep : getMountLoop target ret nb ((Except.ok line :: pr) ++ .error e :: rest) =
            getMountLoop target (if m.file.isPrefixOf target then some m else ret)
              (nb + 1) (pr ++ .error e :: rest) := by
          simp [getMountLoop, hp]
        rw [hstep, ih (nb + 1) _ e rest hpr]

theorem getMountLoop_line_error (target : PathBuf) :
    ∀ (pre : List (Except String String)) (nb : Nat) (ret : Option MountEntry)
      (line : String) (le : LineError) (rest : List (Except String String)),
      pre.all parsedOk = true →
      mountEntryFromStr line = .error le →
      getMountLoop target ret nb (pre ++ .ok line :: rest) =
        .error (.lineError (nb + pre.length) le) := by
  intro pre
  induction pre with
  | nil =>
    intro nb ret line le rest _ hline
    simp [getMountLoop, hline]
  | cons x pr ih =>
    intro nb ret line le rest hall hline
    rw [List.all_cons, Bool.and_eq_true] at hall
    obtain ⟨hx, hpr⟩ := hall
    cases x with
    | error e0 => simp [parsedOk] at hx
    | ok line0 =>
      cases hp : mountEntryFromStr line0 with
      | error e0 => simp [parsedOk, hp, Except.isOk, Except.toBool] at hx
      | ok m =>
        have hstep : getMountLoop target ret nb
              ((Except.ok line0 :: pr) ++ .ok line :: rest) =
            getMountLoop target (if m.file.isPrefixOf target then some m else ret)
              (nb + 1) (pr ++ .ok line :: rest) := by
          simp [getMountLoop, hp]
        rw [hstep, ih (nb + 1) _ line le rest hpr hline]
        have harith : nb + 1 + pr.length = nb + (Except.ok line0 :: pr).length := by
          simp only [List.length_cons]
          omega
        rw [harith]

/-- Claim C1 (amended): `get_mount` returns the last (most recently
listed) entry whose `file` is an ancestor-or-equal — a component
prefix — of the queried path, `none` when no entry's `file` is such a
prefix, and propagates the first parse or I/O error encountered while
scanning. -/
theorem c1_get_mount_last_ancestor :
    ∀ (target : PathBuf) (lines : List (Except String String)),
      (lines.all parsedOk = true →
        get_mount lines target = .ok ((matchedEntries target lines).getLast?)) ∧
      (∀ (pre : List (Except String String)) (e : String)
          (rest : List (Except String String)),
        lines = pre ++ .error e :: rest → pre.all parsedOk = true →
        get_mount lines target = .error (.ioError e)) ∧
      (∀ (pre : List (Except String String)) (line : String) (le : LineError)
          (rest : List (Except String String)),
        lines = pre ++ .ok line :: rest → pre.all parsedOk = true →
        mountEntryFromStr line = .error le →
        get_mount lines target = .error (.lineError pre.length le)) := by
  intro target lines
  refine ⟨?_, ?_, ?_⟩
  · intro hall
    rw [get_mount, get_mount_from, getMountLoop_all_ok target lines none 0 hall,
      optOr_none_right]
  · intro pre e rest hsplit hall
    rw [get_mount, get_mount_from, hsplit, getMountLoop_io_error target pre 0 none e rest hall]
  · intro pre line le rest hsplit hall hline
    rw [get_mount, get_mount_from, hsplit,
      getMountLoop_line_error target pre 0 none line le rest hall hline]
    rw [Nat.zero_add]

/-- Counterexample to C1 as stated: over a table whose only entry is the
root mount, a query for `/var` returns that entry even though its `file`
does not equal the queried path (the claim requires "none" here, since
no entry's `file` exactly equals `/var`). -/
theorem c1_counterexample :
    get_mount [Except.ok "rootfs / rootfs rw 0 0"] (parsePath "/var") =
      .ok (some rootEntry) ∧
    rootEntry.file ≠ parsePath "/var" := by
  refine ⟨by decide, by decide⟩

/-- Witness for C1 on the crate's demo table: all lines parse, and the
query for `/var/tmp/bar` returns the last prefix match. -/
theorem c1_witness :
    demoLines.all parsedOk = true ∧
    get_mount demoLines (parsePath "/var/tmp/bar") =
      .ok ((matchedEntries (parsePath "/var/tmp/bar") demoLines).getLast?) :=
  ⟨by decide, (c1_get_mount_last_ancestor (parsePath "/var/tmp/bar") demoLines).1 (by decide)⟩

/-! ### C2: remove_overlaps implements the spec's reverse scan -/

theorem excludeHit_eq_mem (excl : List PathBuf) (p : PathBuf) :
    excludeHit excl p = decide (p ∈ excl) := by
  induction excl with
  | nil => rfl
  | cons x xs ih =>
    by_cases hx : p = x
    · subst hx
      simp [excludeHit]
    · have hstep : excludeHit (x :: xs) p = excludeHit xs p := by
        simp [excludeHit, List.dropWhile_cons, hx]
      rw [hstep, ih]
      simp [List.mem_cons, hx]

theorem isPrefixOf_eq_decide (a b : PathBuf) : a.isPrefixOf b = decide (a <+: b) := by
  by_cases h : a <+: b
  · rw [decide_eq_true h]
    exact List.isPrefixOf_iff_prefix.mpr h
  · rw [decide_eq_false h]
    exact Bool.eq_false_iff.mpr (fun hc => h (List.isPrefixOf_iff_prefix.mp hc))

theorem overlapShadowed_eq_spec (excl : List PathBuf) (sorted : List MountEntry)
    (m : MountEntry) :
    overlapShadowed excl sorted m =
      sorted.any (fun a => decide (a.file ∉ excl) && decide (a.file <+: m.file)) := by
  unfold overlapShadowed
  simp only [excludeHit_eq_mem, isPrefixOf_eq_decide, decide_not]

theorem removeOverlapsLoop_eq_spec (excl : List PathBuf) :
    ∀ (rest sorted : List MountEntry),
      removeOverlapsLoop excl sorted rest = removeOverlapsSpecLoop excl sorted rest := by
  intro rest
  induction rest with
  | nil => intro sorted; rfl
  | cons m r ih =>
    intro sorted
    by_cases hroot : m.file = rootPath
    · have h1 : removeOverlapsLoop excl sorted (m :: r) =
          removeOverlapsLoop excl sorted r := by
        simp [removeOverlapsLoop, hroot]
      have h2 : removeOverlapsSpecLoop excl sorted (m :: r) =
          removeOverlapsSpecLoop excl sorted r := by
        simp [removeOverlapsSpecLoop, hroot]
      rw [h1, h2, ih]
    · by_cases hsh : overlapShadowed excl sorted m = true
      · have hsp := (overlapShadowed_eq_spec excl sorted m) ▸ hsh
        have h1 : removeOverlapsLoop excl sorted (m :: r) =
            removeOverlapsLoop excl sorted r := by
          simp [removeOverlapsLoop, hroot, hsh]
        have h2 : removeOverlapsSpecLoop excl sorted (m :: r) =
            removeOverlapsSpecLoop excl sorted r := by
          simp only [removeOverlapsSpecLoop]
          rw [if_neg hroot, if_pos hsp]
        rw [h1, h2, ih]
      · simp only [Bool.not_eq_true] at hsh
        have hsp : (sorted.any fun a =>
            decide (a.file ∉ excl) && decide (a.file <+: m.file)) = false :=
          (overlapShadowed_eq_spec excl sorted m) ▸ hsh
        have h1 : removeOverlapsLoop excl sorted (m :: r) =
            removeOverlapsLoop excl (sorted ++ [m]) r := by
          simp [removeOverlapsLoop, hroot, hsh]
        have h2 : removeOverlapsSpecLoop excl sorted (m :: r) =
            removeOverlapsSpecLoop excl (sorted ++ [m]) r := by
          simp only [removeOverlapsSpecLoop]
          rw [if_neg hroot, if_neg (by rw [hsp]; simp)]
        rw [h1, h2, ih]

theorem removeOverlapsLoop_append_sublist (excl : List PathBuf) :
    ∀ (rest sorted : List MountEntry),
      ∃ s, removeOverlapsLoop excl sorted rest = sorted ++ s ∧ s.Sublist rest := by
  intro rest
  induction rest with
  | nil => intro sorted; exact ⟨[], by simp [removeOverlapsLoop], List.Sublist.refl []⟩
  | cons m r ih =>
    intro sorted
    by_cases hroot : m.file = rootPath
    · obtain ⟨s, hs, hsub⟩ := ih sorted
      exact ⟨s, by simp [removeOverlapsLoop, hroot, hs], hsub.cons m⟩
    · by_cases hsh : overlapShadowed excl sorted m = true
      · obtain ⟨s, hs, hsub⟩ := ih sorted
        exact ⟨s, by simp [removeOverlapsLoop, hroot, hsh, hs], hsub.cons m⟩
      · obtain ⟨s, hs, hsub⟩ := ih (sorted ++ [m])
        refine ⟨m :: s, ?_, hsub.cons₂ m⟩
        simp only [Bool.not_eq_true] at hsh
        have hstep : removeOverlapsLoop excl sorted (m :: r) =
            removeOverlapsLoop excl (sorted ++ [m]) r := by
          simp [removeOverlapsLoop, hroot, hsh]
        rw [hstep, hs]
        simp

theorem removeOverlapsLoop_no_root (excl : List PathBuf) :
    ∀ (rest sorted : List MountEntry),
      sorted.all (fun m => decide (m.file ≠ rootPath)) = true →
      (removeOverlapsLoop excl sorted rest).all (fun m => decide (m.file ≠ rootPath)) = true := by
  intro rest
  induction rest with
  | nil => intro sorted h; exact h
  | cons m r ih =>
    intro sorted hall
    by_cases hroot : m.file = rootPath
    · have hstep : removeOverlapsLoop excl sorted (m :: r) =
          removeOverlapsLoop excl sorted r := by
        simp [removeOverlapsLoop, hroot]
      rw [hstep]
      exact ih sorted hall
    · by_cases hsh : overlapShadowed excl sorted m = true
      · have hstep : removeOverlapsLoop excl sorted (m :: r) =
            removeOverlapsLoop excl sorted r := by
          simp [removeOverlapsLoop, hroot, hsh]
        rw [hstep]
        exact ih sorted hall
      · simp only [Bool.not_eq_true] at hsh
        have hstep : removeOverlapsLoop excl sorted (m :: r) =
            removeOverlapsLoop excl (sorted ++ [m]) r := by
          simp [removeOverlapsLoop, hroot, hsh]
        rw [hstep]
        refine ih (sorted ++ [m]) ?_
        rw [List.all_append, hall]
        simp [hroot]

/-- Claim C2: `remove_overlaps` coincides with the spec's description of
the Overlap Reducer (reverse-chronological scan, root entries dropped,
an entry dropped exactly when an already-accepted entry whose `file` is
not excluded is an ancestor-or-equal of its `file`); the result contains
no root entry and is a subsequence of the input, i.e. survivors keep
their chronological order. -/
theorem c2_remove_overlaps_matches_spec :
    ∀ (mounts : List MountEntry) (excluded : List PathBuf),
      remove_overlaps mounts excluded = removeOverlapsSpec mounts excluded ∧
      (remove_overlaps mounts excluded).all (fun m => decide (m.file ≠ rootPath)) = true ∧
      (remove_overlaps mounts excluded).Sublist mounts := by
  intro l excl
  refine ⟨?_, ?_, ?_⟩
  · rw [remove_overlaps, removeOverlapsSpec, removeOverlapsLoop_eq_spec]
  · rw [remove_overlaps, List.all_reverse]
    exact removeOverlapsLoop_no_root excl l.reverse [] rfl
  · rw [remove_overlaps]
    obtain ⟨s, hs, hsub⟩ := removeOverlapsLoop_append_sublist excl l.reverse []
    rw [hs]
    simp only [List.nil_append]
    have hrev := hsub.reverse
    rwa [List.reverse_reverse] at hrev

/-! ### C3: remove_overlaps is idempotent -/

theorem removeOverlapsLoop_fixed (excl : List PathBuf) :
    ∀ (rest sorted s : List MountEntry),
      removeOverlapsLoop excl sorted rest = sorted ++ s →
      removeOverlapsLoop excl sorted s = sorted ++ s := by
  intro rest
  induction rest with
  | nil =>
    intro sorted s h
    have h0 : sorted ++ [] = sorted ++ s := by simpa [removeOverlapsLoop] using h
    have hempty : s = [] := (List.append_cancel_left h0).symm
    subst hempty
    simp [removeOverlapsLoop]
  | cons m r ih =>
    intro sorted s h
    by_cases hroot : m.file = rootPath
    · have hstep : removeOverlapsLoop excl sorted (m :: r) =
          removeOverlapsLoop excl sorted r := by
        simp [removeOverlapsLoop, hroot]
      rw [hstep] at h
      exact ih sorted s h
    · by_cases hsh : overlapShadowed excl sorted m = true
      · have hstep : removeOverlapsLoop excl sorted (m :: r) =
            removeOverlapsLoop excl sorted r := by
          simp [removeOverlapsLoop, hroot, hsh]
        rw [hstep] at h
        exact ih sorted s h
      · simp only [Bool.not_eq_true] at hsh
        have hstep : removeOverlapsLoop excl sorted (m :: r) =
            removeOverlapsLoop excl (sorted ++ [m]) r := by
          simp [removeOverlapsLoop, hroot, hsh]
        rw [hstep] at h
        obtain ⟨s', hs', -⟩ := removeOverlapsLoop_append_sublist excl r (sorted ++ [m])
        have hss : s = m :: s' := by
          rw [hs', List.append_assoc] at h
          have hc := List.append_cancel_left h
          simpa using hc.symm
        subst hss
        have hstep2 : removeOverlapsLoop excl sorted (m :: s') =
            removeOverlapsLoop excl (sorted ++ [m]) s' := by
          simp [removeOverlapsLoop, hroot, hsh]
        rw [hstep2, ih (sorted ++ [m]) s' hs']
        simp

/-- Claim C3: for any input list and exclusion list, applying
`remove_overlaps` to its own output returns the output unchanged. -/
theorem c3_remove_overlaps_idempotent :
    ∀ (mounts : List MountEntry) (excluded : List PathBuf),
      remove_overlaps (remove_overlaps mounts excluded) excluded =
        remove_overlaps mounts excluded := by
  intro l excl
  rw [remove_overlaps, remove_overlaps, List.reverse_reverse]
  congr 1
  have h := removeOverlapsLoop_fixed excl l.reverse []
    (removeOverlapsLoop excl [] l.reverse) (by simp)
  simpa using h
